import Mathlib

/-!
Verification of the WasmFX computational kernels (src/wasm_lib/src/lib.rs).

The source is a Rust library compiled to wasm32 (wasm-bindgen).  The shallow
embedding below follows these conventions:

* Pixel buffers are `List ℕ` whose entries are byte values (`u8`, i.e. `< 256`).
* Machine integers are modelled as `ℕ`/`ℤ` with explicit wrapping:
  the crate is built for wasm32 in release mode, so `usize` is 32 bits and
  arithmetic overflow wraps (two's complement) rather than trapping.
* `f32`/`f64` values are modelled by the type `F` below: either `NaN` or an
  exact rational.  All structural IEEE facts the theorems rely on are exact in
  this model (`0/0 = NaN`, `NaN` propagation through `+ * /` and `exp`,
  `NaN as u8 = 0`, saturating float-to-int casts).  The transcendental
  functions (`exp`, `sqrt`) and rounding of inexact results are replaced by
  exact-rational surrogates; no theorem in this file depends on any finite
  value produced by those surrogates, only on NaN-propagation, on which bytes
  of a buffer are written, and on buffer lengths.
* Rust `Vec` indexing panics out of bounds; where a claim's hypotheses put all
  accesses in bounds the embedding reads with `List.getD` (the default is then
  never used).  `apply_sharpen`, whose loop bounds can wrap (`height - 2` on
  `usize`) and which can therefore read out of bounds inside its claimed
  domain, is modelled in the `Option` monad: `none` models a panic.
* The `console_log!` trace lines are I/O only and are not modelled (the spec
  excludes them from the functional contract).
-/

/-! ### wasm32 machine-integer helpers -/

/-- Number of values of a 32-bit machine word (`u32`, and `usize` on wasm32). -/
def U32M : ℕ := 2 ^ 32

/-- Two's-complement wrapping of an `i32` computation (release-mode Rust
arithmetic wraps on overflow). -/
def wrap32 (z : ℤ) : ℤ := (z + 2 ^ 31) % 2 ^ 32 - 2 ^ 31

/-- Rust `as i32` applied to an unsigned value (`u32 as i32` / `usize as i32`
on wasm32): reinterpret the low 32 bits as two's complement. -/
def toI32 (n : ℕ) : ℤ :=
  if n % U32M < 2 ^ 31 then (n % U32M : ℤ) else (n % U32M : ℤ) - 2 ^ 32

/-- Wrapping `usize` subtraction on wasm32 (release mode): `a - b` wraps
modulo `2^32` when `b > a`. -/
def usubWrap (a b : ℕ) : ℕ := (a + U32M - b) % U32M

/-- Rust `as usize` applied to an `i32` value on wasm32: reinterpret the
32-bit pattern as unsigned. -/
def iToUsize (z : ℤ) : ℕ := (z % 2 ^ 32).toNat

/-- Rust `i32` division: truncation toward zero (Lean's `Int` `/` is not
truncation toward zero, so it is spelled out). -/
def tdivZ (a b : ℤ) : ℤ :=
  if (0 ≤ a ∧ 0 ≤ b) ∨ (a < 0 ∧ b < 0) then ((a.natAbs / b.natAbs : ℕ) : ℤ)
  else -((a.natAbs / b.natAbs : ℕ) : ℤ)

/-! ### Loop combinators

Rust `for i in lo..hi` loops are modelled by `foldRange` (fuel-based so that
the kernel can evaluate them).  `foldRangeM` is the same loop in the `Option`
monad: a `none` from the body (a panic, e.g. an out-of-bounds index) aborts
the whole loop, exactly like a Rust panic aborts execution. -/

def foldRangeGo {α : Type} (g : ℕ → α → α) : ℕ → ℕ → α → α
  | 0, _, a => a
  | fuel + 1, i, a => foldRangeGo g fuel (i + 1) (g i a)

/-- `foldRange g lo hi a` folds `g` over `i = lo, lo+1, ..., hi-1`
starting from `a` (Rust `for i in lo..hi`). -/
def foldRange {α : Type} (g : ℕ → α → α) (lo hi : ℕ) (a : α) : α :=
  foldRangeGo g (hi - lo) lo a

def foldRangeMGo {α : Type} (g : ℕ → α → Option α) : ℕ → ℕ → α → Option α
  | 0, _, a => some a
  | fuel + 1, i, a => (g i a).bind (foldRangeMGo g fuel (i + 1))

/-- Rust `for i in lo..hi` whose body may panic (`none`). -/
def foldRangeM {α : Type} (g : ℕ → α → Option α) (lo hi : ℕ) (a : α) : Option α :=
  foldRangeMGo g (hi - lo) lo a

/-! ### A structural model of IEEE floats

`F` is either NaN or an exact rational.  Arithmetic follows IEEE semantics on
the cases this program can reach: any operation with a NaN operand gives NaN,
`0/0` gives NaN, comparisons with NaN are false, `f32::min` ignores NaN, and
float-to-`u8` casts saturate with `NaN ↦ 0` (Rust `as` cast semantics).
Infinities are omitted: the only division whose divisor can be `0` in the
modelled code paths is `-0.0/0.0` in the blur weight (radius = 0), which is
`0/0 = NaN`; a nonzero-over-zero division does not occur.  Exact rationals
stand in for binary floats: rounding and the transcendental `exp`/`sqrt` are
replaced by the surrogates `expQ`/`sqrtQ`.  No theorem below depends on a
finite value computed through an inexact operation. -/

inductive F : Type where
  | nan : F
  | fin : ℚ → F
deriving DecidableEq

def F.add : F → F → F
  | F.fin a, F.fin b => F.fin (a + b)
  | _, _ => F.nan

def F.sub : F → F → F
  | F.fin a, F.fin b => F.fin (a - b)
  | _, _ => F.nan

def F.mul : F → F → F
  | F.fin a, F.fin b => F.fin (a * b)
  | _, _ => F.nan

def F.neg : F → F
  | F.fin a => F.fin (-a)
  | F.nan => F.nan

/-- IEEE division restricted to the reachable cases: division by zero yields
NaN (in this program the dividend is then also `0` or NaN). -/
def F.div : F → F → F
  | F.fin a, F.fin b => if b = 0 then F.nan else F.fin (a / b)
  | _, _ => F.nan

/-- IEEE `<=`: false whenever an operand is NaN. -/
def F.le (x y : F) : Bool :=
  match x, y with
  | F.fin a, F.fin b => decide (a ≤ b)
  | _, _ => false

/-- `f32::min`: returns the other operand when one is NaN. -/
def F.fmin : F → F → F
  | F.fin a, F.fin b => F.fin (min a b)
  | F.nan, b => b
  | a, F.nan => a

/-- Exact-rational surrogate for the transcendental `exp` (truncated Taylor
series).  Only `F.exp F.nan = F.nan` matters to any theorem below. -/
def expQ (q : ℚ) : ℚ := (List.range 16).foldl (fun acc k => acc + q ^ k / (Nat.factorial k : ℚ)) 0

def F.exp : F → F
  | F.nan => F.nan
  | F.fin q => F.fin (expQ q)

/-- Exact-rational surrogate for `sqrt`.  Only NaN-propagation matters to any
theorem below. -/
def sqrtQ (q : ℚ) : ℚ := (Nat.sqrt (q.num.toNat * q.den) : ℚ) / (q.den : ℚ)

def F.sqrt : F → F
  | F.nan => F.nan
  | F.fin q => if q < 0 then F.nan else F.fin (sqrtQ q)

/-- Rust `as u8` on a float: NaN to `0`, otherwise truncate toward zero and
saturate into `[0, 255]` (for a finite value, floor-then-clamp agrees with
truncate-then-clamp). -/
def F.toU8 : F → ℕ
  | F.nan => 0
  | F.fin q => (max 0 (min 255 (Rat.floor q))).toNat

/-! ### Pixel-write helpers

Every image kernel writes a pixel as (up to) four consecutive `Vec` index
assignments `result[idx] = r; result[idx+1] = g; result[idx+2] = b;
(result[idx+3] = a)` with `idx = (y * width + x) * 4`.  `setPix3`/`setPix4`
are those assignment sequences, and `pixPass3`/`pixPass4` are the surrounding
`for y { for x { ... } }` loop nests. -/

def setPix3 (d : List ℕ) (base r g b : ℕ) : List ℕ :=
  ((d.set base r).set (base + 1) g).set (base + 2) b

def setPix4 (d : List ℕ) (base r g b a : ℕ) : List ℕ :=
  (setPix3 d base r g b).set (base + 3) a

def pixPass3 (W : ℕ) (fR fG fB : ℕ → ℕ → ℕ) (ly hy lx hx : ℕ) (init : List ℕ) : List ℕ :=
  foldRange (fun y d =>
    foldRange (fun x d2 =>
      setPix3 d2 ((y * W + x) * 4) (fR y x) (fG y x) (fB y x)) lx hx d) ly hy init

def pixPass4 (W : ℕ) (fR fG fB fA : ℕ → ℕ → ℕ) (ly hy lx hx : ℕ) (init : List ℕ) : List ℕ :=
  foldRange (fun y d =>
    foldRange (fun x d2 =>
      setPix4 d2 ((y * W + x) * 4) (fR y x) (fG y x) (fB y x) (fA y x)) lx hx d) ly hy init

/-! ### Demo 1: grayscale (lib.rs lines 27-47)

`chunks_exact_mut(4)` visits the complete 4-byte chunks and leaves a trailing
remainder of fewer than 4 bytes untouched; the recursion below does the same.
The luminance arithmetic is `u32` (never overflows for byte inputs: the sum
is at most `255 * 1000 < 2^32`); `as u8` truncates modulo 256. -/

/-- Luminance of one pixel: `((r*299 + g*587 + b*114) / 1000) as u8`. -/
def lum (r g b : ℕ) : ℕ := ((r * 299 + g * 587 + b * 114) / 1000) % 256

def apply_grayscale : List ℕ → List ℕ
  | r :: g :: b :: a :: rest => lum r g b :: lum r g b :: lum r g b :: a :: apply_grayscale rest
  | rest => rest

/-! ### Demo 2: invert (lib.rs lines 51-63)

`255 - pixel[c]` on `u8` can never underflow (`pixel[c] ≤ 255`), so plain
truncated `ℕ` subtraction is exact. -/

def apply_invert : List ℕ → List ℕ
  | r :: g :: b :: a :: rest => (255 - r) :: (255 - g) :: (255 - b) :: a :: apply_invert rest
  | rest => rest

/-! ### Demo 3: Gaussian blur (lib.rs lines 69-142)

Two passes; the horizontal pass reads `image_data` and writes every pixel's
R,G,B into `temp` (a clone of `image_data`), the vertical pass reads `temp`
and writes every pixel's R,G,B back into `image_data`.  Alpha bytes are never
written in either pass.  All weight/sum arithmetic is `f32`, modelled in `F`.
Reads use `List.getD`; under the buffer invariant `len = width*height*4` every
Rust read is in bounds, so the default is never consulted.
`for dx in -radius..=radius` iterates over the `i32` range obtained from
`radius as i32`; `blurDxs` reproduces it including the wrap-around corner
cases (`radius ≥ 2^31` makes the range empty, except `radius = 2^31` where
`-radius` wraps to itself and the range is the single value `-2^31`). -/

def blurDxs (r : ℤ) : List ℤ :=
  if r = -(2 ^ 31) then [-(2 ^ 31)]
  else if r < 0 then []
  else (List.range (2 * r.toNat + 1)).map (fun k => (k : ℤ) - r)

/-- `(v).max(0).min(bound - 1) as usize` where `v` and `bound` are `i32`
(the `bound - 1` subtraction itself wraps as `i32`). -/
def clampCoord (v bound : ℤ) : ℕ := iToUsize (min (max v 0) (wrap32 (bound - 1)))

/-- The Gaussian weight `(-((dx*dx) as f32) / two_sigma_sq).exp()`; the `i32`
square wraps.  For `two_sigma_sq = 0` (radius 0) this is `exp(-0/0) = NaN`. -/
def blurWeight (tss : F) (dx : ℤ) : F :=
  F.exp (F.div (F.neg (F.fin (wrap32 (dx * dx) : ℚ))) tss)

/-- One pixel's weighted sums `(r_sum, g_sum, b_sum, weight_sum)`, folding
over the `dx` range; `idxf dx` is the clamped neighbour's base index. -/
def blurAccum (src : List ℕ) (tss : F) (idxf : ℤ → ℕ) (dxs : List ℤ) : F × F × F × F :=
  dxs.foldl (fun acc dx =>
    let idx := idxf dx
    let w := blurWeight tss dx
    (F.add acc.1 (F.mul (F.fin (src.getD idx 0 : ℚ)) w),
     F.add acc.2.1 (F.mul (F.fin (src.getD (idx + 1) 0 : ℚ)) w),
     F.add acc.2.2.1 (F.mul (F.fin (src.getD (idx + 2) 0 : ℚ)) w),
     F.add acc.2.2.2 w)) (F.fin 0, F.fin 0, F.fin 0, F.fin 0)

/-- One pixel's output `(r, g, b)`: each sum divided by `weight_sum`, cast
`as u8`. -/
def blurRGB (src : List ℕ) (tss : F) (idxf : ℤ → ℕ) (dxs : List ℤ) : ℕ × ℕ × ℕ :=
  let s := blurAccum src tss idxf dxs
  (F.toU8 (F.div s.1 s.2.2.2), F.toU8 (F.div s.2.1 s.2.2.2), F.toU8 (F.div s.2.2.1 s.2.2.2))

def blurIdxH (W : ℕ) (y x : ℕ) (dx : ℤ) : ℕ :=
  (y * W + clampCoord (wrap32 (toI32 x + dx)) (toI32 W)) * 4

def blurIdxV (W H : ℕ) (y x : ℕ) (dy : ℤ) : ℕ :=
  (clampCoord (wrap32 (toI32 y + dy)) (toI32 H) * W + x) * 4

def apply_blur (image_data : List ℕ) (width height radius : ℕ) : List ℕ :=
  let ir := toI32 radius
  let sigma := F.div (F.fin (ir : ℚ)) (F.fin 3)
  let tss := F.mul (F.fin 2) (F.mul sigma sigma)
  let dxs := blurDxs ir
  let temp := pixPass3 width
    (fun y x => (blurRGB image_data tss (blurIdxH width y x) dxs).1)
    (fun y x => (blurRGB image_data tss (blurIdxH width y x) dxs).2.1)
    (fun y x => (blurRGB image_data tss (blurIdxH width y x) dxs).2.2)
    0 height 0 width image_data
  pixPass3 width
    (fun y x => (blurRGB temp tss (blurIdxV width height y x) dxs).1)
    (fun y x => (blurRGB temp tss (blurIdxV width height y x) dxs).2.1)
    (fun y x => (blurRGB temp tss (blurIdxV width height y x) dxs).2.2)
    0 height 0 width image_data

/-! ### Demo 4: Sobel edge detection (lib.rs lines 146-193)

Output starts as a zero buffer of the input's length; only interior pixels
(`1 ≤ y < height-1`, `1 ≤ x < width-1`) are written, four channels each, the
alpha channel copied from the source pixel.  The grayscale conversion and
gradient arithmetic are `f32` (`0.299` etc. stand for the corresponding `f32`
literals; the values never reach any theorem).  For `height = 0` or
`width = 0` with the other dimension large, the Rust `1..height-1` bound
wraps; all theorems below assume `width, height ≥ 1` and a buffer of matching
length, where Lean's truncated subtraction agrees with Rust. -/

def sobelX : List (List ℤ) := [[-1, 0, 1], [-2, 0, 2], [-1, 0, 1]]

def sobelY : List (List ℤ) := [[-1, -2, -1], [0, 0, 0], [1, 2, 1]]

def edgeGray (src : List ℕ) (idx : ℕ) : F :=
  F.add
    (F.add (F.mul (F.fin (src.getD idx 0 : ℚ)) (F.fin (299 / 1000)))
      (F.mul (F.fin (src.getD (idx + 1) 0 : ℚ)) (F.fin (587 / 1000))))
    (F.mul (F.fin (src.getD (idx + 2) 0 : ℚ)) (F.fin (114 / 1000)))

/-- Gradient magnitude `(gx*gx + gy*gy).sqrt().min(255.0) as u8` at an
interior pixel, the 3x3 Sobel convolution folded over `ky`, `kx`. -/
def edgeMag (src : List ℕ) (W : ℕ) (y x : ℕ) : ℕ :=
  let gs := foldRange (fun ky (g : F × F) =>
    foldRange (fun kx (g2 : F × F) =>
      let idx := ((y + ky - 1) * W + (x + kx - 1)) * 4
      let gray := edgeGray src idx
      (F.add g2.1 (F.mul gray (F.fin ((sobelX.getD ky []).getD kx 0 : ℚ))),
       F.add g2.2 (F.mul gray (F.fin ((sobelY.getD ky []).getD kx 0 : ℚ))))) 0 3 g) 0 3
    (F.fin 0, F.fin 0)
  F.toU8 (F.fmin (F.sqrt (F.add (F.mul gs.1 gs.1) (F.mul gs.2 gs.2))) (F.fin 255))

def apply_edge_detection (image_data : List ℕ) (width height : ℕ) : List ℕ :=
  pixPass4 width
    (fun y x => edgeMag image_data width y x)
    (fun y x => edgeMag image_data width y x)
    (fun y x => edgeMag image_data width y x)
    (fun y x => image_data.getD ((y * width + x) * 4 + 3) 0)
    1 (height - 1) 1 (width - 1) (List.replicate image_data.length 0)

/-! ### Demo 5: Mandelbrot (lib.rs lines 199-256) -/

/-- The escape-time loop `while x*x + y*y <= 4.0 && iteration < max_iter`:
the fuel is `max_iter - iteration`, so the loop also stops at `max_iter`.
Returns the final iteration count. -/
def mandelIter (x0 y0 : F) : ℕ → F → F → ℕ → ℕ
  | 0, _, _, it => it
  | fuel + 1, x, y, it =>
    if F.le (F.add (F.mul x x) (F.mul y y)) (F.fin 4) then
      mandelIter x0 y0 fuel (F.add (F.sub (F.mul x x) (F.mul y y)) x0)
        (F.add (F.mul (F.fin 2) (F.mul x y)) y0) (it + 1)
    else it

/-- One pixel's `(r, g, b)` colour from its escape count. -/
def mandelPixel (width height maxIter py px : ℕ) : ℕ × ℕ × ℕ :=
  let xscale := F.div (F.sub (F.fin 1) (F.fin (-5 / 2))) (F.fin (width : ℚ))
  let yscale := F.div (F.sub (F.fin 1) (F.fin (-1))) (F.fin (height : ℚ))
  let x0 := F.add (F.fin (-5 / 2)) (F.mul (F.fin (px : ℚ)) xscale)
  let y0 := F.add (F.fin (-1)) (F.mul (F.fin (py : ℚ)) yscale)
  let it := mandelIter x0 y0 maxIter (F.fin 0) (F.fin 0) 0
  if it == maxIter then (0, 0, 0)
  else
    let frac := F.div (F.fin (it : ℚ)) (F.fin (maxIter : ℚ))
    (F.toU8 (F.mul (F.fin 255) (F.sub (F.fin 1) frac)),
     F.toU8 (F.mul (F.fin 255) (F.sqrt frac)),
     F.toU8 (F.mul (F.fin 255) frac))

/-- The source allocates `vec![0u8; width*height*4]` and writes every pixel's
four bytes exactly once, row-major; `pixPass4` over the full coordinate
ranges is that same write pattern (alpha always 255). -/
def generate_mandelbrot (width height max_iterations : ℕ) : List ℕ :=
  pixPass4 width
    (fun py px => (mandelPixel width height max_iterations py px).1)
    (fun py px => (mandelPixel width height max_iterations py px).2.1)
    (fun py px => (mandelPixel width height max_iterations py px).2.2)
    (fun _ _ => 255)
    0 height 0 width (List.replicate (width * height * 4) 0)

/-! ### Demo 6: unsharp sharpen (lib.rs lines 261-316)

All arithmetic is `i32` with release-mode wrapping.  The loop bounds
`2..height-2` and `2..width-2` are `usize` subtractions that wrap on wasm32
when `height < 2` (resp. `width < 2`); with a wrapped bound the loop body
runs and indexes `image_data` out of bounds, which panics.  The model
therefore uses `usubWrap` for the bounds and reads through `Option`
(`l[i]?`), so a panic is `none`. -/

def kernel5 : List (List ℤ) :=
  [[-1, -1, -1, -1, -1], [-1, 2, 2, 2, -1], [-1, 2, 8, 2, -1], [-1, 2, 2, 2, -1],
   [-1, -1, -1, -1, -1]]

/-- The 5x5 convolution sums `(r_sum, g_sum, b_sum)` at `(y, x)` with checked
reads (Rust indexing panics out of bounds). -/
def sharpenSums (src : List ℕ) (W : ℕ) (y x : ℕ) : Option (ℤ × ℤ × ℤ) :=
  foldRangeM (fun ky acc =>
    foldRangeM (fun kx (a : ℤ × ℤ × ℤ) => do
      let idx := ((y + ky - 2) * W + (x + kx - 2)) * 4
      let r ← src[idx]?
      let g ← src[idx + 1]?
      let b ← src[idx + 2]?
      let k := (kernel5.getD ky []).getD kx 0
      pure (wrap32 (a.1 + wrap32 ((r : ℤ) * k)), wrap32 (a.2.1 + wrap32 ((g : ℤ) * k)),
        wrap32 (a.2.2 + wrap32 ((b : ℤ) * k)))) 0 5 acc) 0 5 ((0 : ℤ), (0 : ℤ), (0 : ℤ))

/-- `(orig + (sum * strength) / (kernel_sum * 100)).clamp(0, 255) as u8`
(`kernel_sum * 100 = 800`; `i32` multiply wraps, `i32` division truncates
toward zero). -/
def sharpenVal (orig sum istr : ℤ) : ℕ :=
  (max 0 (min 255 (wrap32 (orig + tdivZ (wrap32 (sum * istr)) 800)))).toNat

def apply_sharpen (image_data : List ℕ) (width height strength : ℕ) : Option (List ℕ) :=
  let istr := toI32 strength
  foldRangeM (fun y d =>
    foldRangeM (fun x d2 => do
      let s ← sharpenSums image_data width y x
      let oi := (y * width + x) * 4
      let r0 ← image_data[oi]?
      let g0 ← image_data[oi + 1]?
      let b0 ← image_data[oi + 2]?
      let a0 ← image_data[oi + 3]?
      pure (setPix4 d2 oi (sharpenVal (r0 : ℤ) s.1 istr) (sharpenVal (g0 : ℤ) s.2.1 istr)
        (sharpenVal (b0 : ℤ) s.2.2 istr) a0)) 2 (usubWrap width 2) d)
    2 (usubWrap height 2) (List.replicate image_data.length 0)

/-- Panic-free restatement of `apply_sharpen` used to reason about the claimed
domain: identical loops and arithmetic, reads through `getD`.  The bridge
theorem `apply_sharpen_eq_pure` shows `apply_sharpen = some ∘ apply_sharpen_pure`
whenever `width, height ≥ 2` (no bound wraps) and the buffer has matching
length (no read is out of bounds). -/
def sharpenSumsPure (src : List ℕ) (W : ℕ) (y x : ℕ) : ℤ × ℤ × ℤ :=
  foldRange (fun ky acc =>
    foldRange (fun kx (a : ℤ × ℤ × ℤ) =>
      let idx := ((y + ky - 2) * W + (x + kx - 2)) * 4
      let k := (kernel5.getD ky []).getD kx 0
      (wrap32 (a.1 + wrap32 ((src.getD idx 0 : ℤ) * k)),
       wrap32 (a.2.1 + wrap32 ((src.getD (idx + 1) 0 : ℤ) * k)),
       wrap32 (a.2.2 + wrap32 ((src.getD (idx + 2) 0 : ℤ) * k)))) 0 5 acc) 0 5
    ((0 : ℤ), (0 : ℤ), (0 : ℤ))

def apply_sharpen_pure (src : List ℕ) (W H strength : ℕ) : List ℕ :=
  pixPass4 W
    (fun y x => sharpenVal (src.getD ((y * W + x) * 4) 0 : ℤ) (sharpenSumsPure src W y x).1 (toI32 strength))
    (fun y x => sharpenVal (src.getD ((y * W + x) * 4 + 1) 0 : ℤ) (sharpenSumsPure src W y x).2.1 (toI32 strength))
    (fun y x => sharpenVal (src.getD ((y * W + x) * 4 + 2) 0 : ℤ) (sharpenSumsPure src W y x).2.2 (toI32 strength))
    (fun y x => src.getD ((y * W + x) * 4 + 3) 0)
    2 (H - 2) 2 (W - 2) (List.replicate src.length 0)

/-! ### Benchmark 1: primes (lib.rs lines 325-348)

The source computes `sqrt_num = (num as f64).sqrt() as u32`.  For every
`num < 2^32` this equals `Nat.sqrt num`: `num` converts to `f64` exactly, the
correctly-rounded `f64` square root differs from the real root by far less
than the distance (at least `2^-17`) from the real root of a non-square to
the nearest integer, and the `as u32` cast truncates.  `isqrt` is an
executable equivalent of `Nat.sqrt` (proved equal in `isqrt_eq_sqrt`). -/

def isqrt (n : ℕ) : ℕ :=
  foldRange (fun k acc => if (k + 1) * (k + 1) ≤ n then k + 1 else acc) 0 n 0

/-- Trial division `for i in 2..=sqrt_num { if num % i == 0 { not prime } }`. -/
def isPrimeTrial (num : ℕ) : Bool :=
  (List.range' 2 (isqrt num + 1 - 2)).all (fun i => !(num % i == 0))

/-- `for num in 2..=limit`, pushing the numbers that survive trial division. -/
def calculate_primes (limit : ℕ) : List ℕ :=
  (List.range' 2 (limit + 1 - 2)).filter isPrimeTrial

/-! ### Benchmark 2: matrix multiply (lib.rs lines 352-384)

Values are `f64`; every entry is an integer below `10` and every product sum
is below `10 * 10 * size ≤ 100 * 2^32 < 2^53`, so `f64` arithmetic is exact
and ℚ models it without loss.  The source preallocates each vector and
assigns `v[i*size+j]` for `i`, `j` row-major in increasing order, which is
the same list as appending in loop order. -/

def matrixA (size : ℕ) : List ℚ :=
  foldRange (fun i m => foldRange (fun j m2 => m2 ++ [(((i + j) % 10 : ℕ) : ℚ)]) 0 size m)
    0 size []

def matrixB (size : ℕ) : List ℚ :=
  foldRange (fun i m => foldRange (fun j m2 => m2 ++ [(((i * j) % 10 : ℕ) : ℚ)]) 0 size m)
    0 size []

def matrix_multiply (size : ℕ) : List ℚ :=
  let a := matrixA size
  let b := matrixB size
  foldRange (fun i r =>
    foldRange (fun j r2 =>
      r2 ++ [foldRange (fun k s => s + a.getD (i * size + k) 0 * b.getD (k * size + j) 0)
        0 size 0]) 0 size r) 0 size []

/-! ### Benchmark 3: Fibonacci (lib.rs lines 388-407)

`u64` addition wraps in release mode (first relevant at `count ≥ 94`); the
indexing `sequence[i-1]`, `sequence[i-2]` is always in bounds because the
vector has `i` elements when the loop body runs with index `i ≥ 2`. -/

def fibonacci_sequence (count : ℕ) : List ℕ :=
  let s0 : List ℕ := if 1 ≤ count then [0] else []
  let s1 : List ℕ := if 2 ≤ count then s0 ++ [1] else s0
  foldRange (fun i t => t ++ [(t.getD (i - 1) 0 + t.getD (i - 2) 0) % 2 ^ 64]) 2 count s1

/-! ### Benchmark 4: hash mixer (lib.rs lines 411-429)

All `u32` arithmetic: `wrapping_mul`/`wrapping_add` are multiplication and
addition modulo `2^32`; xor and logical right shift keep values below
`2^32`. -/

def hashStep (h i : ℕ) : ℕ :=
  let h1 := (h * 1103515245 + 12345) % U32M
  let h2 := h1 ^^^ (h1 >>> 16)
  let h3 := (h2 * 0x85ebca6b) % U32M
  let h4 := h3 ^^^ (h3 >>> 13)
  let h5 := (h4 * 0xc2b2ae35) % U32M
  let h6 := h5 ^^^ (h5 >>> 16)
  (h6 + i) % U32M

def compute_hashes (iterations : ℕ) : ℕ :=
  foldRange (fun i h => hashStep h i) 0 iterations 0x12345678

/-! ### Benchmark 5: Monte Carlo π (lib.rs lines 433-455)

The LCG is `u32` wrapping; the draws are converted with
`seed as f64 / u32::MAX as f64 * 2.0 - 1.0` (modelled exactly in ℚ — the
`f64` rounding of the quotient affects no theorem).  For `samples = 0` the
final line divides `0.0` by `0.0`, giving NaN. -/

def lcgNext (seed : ℕ) : ℕ := (seed * 1103515245 + 12345) % U32M

def estimate_pi (samples : ℕ) : F :=
  let st := foldRange (fun _ (p : ℕ × ℕ) =>
    let s1 := lcgNext p.2
    let x := F.sub (F.mul (F.div (F.fin (s1 : ℚ)) (F.fin ((U32M - 1 : ℕ) : ℚ))) (F.fin 2)) (F.fin 1)
    let s2 := lcgNext s1
    let y := F.sub (F.mul (F.div (F.fin (s2 : ℚ)) (F.fin ((U32M - 1 : ℕ) : ℚ))) (F.fin 2)) (F.fin 1)
    (if F.le (F.add (F.mul x x) (F.mul y y)) (F.fin 1) then p.1 + 1 else p.1, s2))
    0 samples (0, 123456789)
  F.div (F.mul (F.fin 4) (F.fin (st.1 : ℚ))) (F.fin (samples : ℚ))

/-! ### Benchmark 6: sort (lib.rs lines 459-476)

The generated values are `(seed % 10000) as i32` (always in `[0, 10000)`).
`sort_unstable` sorts `i32` by its total order; on a total linear order every
comparison sort produces the same list, modelled by insertion sort. -/

def sort_array (size : ℕ) : List ℤ :=
  let gen := foldRange (fun _ (p : List ℤ × ℕ) =>
    let s := lcgNext p.2
    (p.1 ++ [((s % 10000 : ℕ) : ℤ)], s)) 0 size ([], 42)
  List.insertionSort (· ≤ ·) gen.1

/-! ### Loop-invariant lemmas for the fold combinators -/

theorem foldRangeGo_inv {α : Type} (g : ℕ → α → α) (P : α → Prop)
    (h : ∀ i a, P a → P (g i a)) :
    ∀ fuel i a, P a → P (foldRangeGo g fuel i a)
  | 0, _, _, ha => ha
  | fuel + 1, i, a, ha => foldRangeGo_inv g P h fuel (i + 1) (g i a) (h i a ha)

theorem foldRangeGo_inv_between {α : Type} (g : ℕ → α → α) (P : α → Prop) :
    ∀ fuel i a, (∀ j b, i ≤ j → j < i + fuel → P b → P (g j b)) → P a →
      P (foldRangeGo g fuel i a)
  | 0, _, _, _, ha => ha
  | fuel + 1, i, a, h, ha =>
    foldRangeGo_inv_between g P fuel (i + 1) (g i a)
      (fun j b hj1 hj2 => h j b (by omega) (by omega))
      (h i a (le_refl i) (by omega) ha)

theorem foldRangeGo_ind {α : Type} (g : ℕ → α → α) (P : ℕ → α → Prop)
    (h : ∀ i a, P i a → P (i + 1) (g i a)) :
    ∀ fuel i a, P i a → P (i + fuel) (foldRangeGo g fuel i a)
  | 0, i, a, ha => ha
  | fuel + 1, i, a, ha => by
    have hstep := foldRangeGo_ind g P h fuel (i + 1) (g i a) (h i a ha)
    have harith : i + 1 + fuel = i + (fuel + 1) := by omega
    rw [harith] at hstep
    exact hstep

/-- Peeling the last iteration off a fuel-based fold. -/
theorem foldRangeGo_succ {α : Type} (g : ℕ → α → α) :
    ∀ fuel i a, foldRangeGo g (fuel + 1) i a = g (i + fuel) (foldRangeGo g fuel i a)
  | 0, i, a => by simp [foldRangeGo]
  | fuel + 1, i, a => by
    show foldRangeGo g (fuel + 1) (i + 1) (g i a) = _
    rw [foldRangeGo_succ g fuel (i + 1) (g i a)]
    have harith : i + 1 + fuel = i + (fuel + 1) := by omega
    rw [harith]
    rfl

/-- A monadic range fold whose body never panics in range agrees with the
pure fold. -/
theorem foldRangeMGo_eq_go {α : Type} (gM : ℕ → α → Option α) (g : ℕ → α → α) :
    ∀ fuel i a, (∀ j b, i ≤ j → j < i + fuel → gM j b = some (g j b)) →
      foldRangeMGo gM fuel i a = some (foldRangeGo g fuel i a)
  | 0, _, _, _ => rfl
  | fuel + 1, i, a, h => by
    show (gM i a).bind _ = _
    rw [h i a (le_refl i) (by omega)]
    show foldRangeMGo gM fuel (i + 1) (g i a) = _
    exact foldRangeMGo_eq_go gM g fuel (i + 1) (g i a) (fun j b h1 h2 => h j b (by omega) (by omega))

/-! ### Write-pattern lemmas for `setPix3` / `setPix4` -/

theorem length_setPix3 (d : List ℕ) (base r g b : ℕ) :
    (setPix3 d base r g b).length = d.length := by
  unfold setPix3
  rw [List.length_set, List.length_set, List.length_set]

theorem length_setPix4 (d : List ℕ) (base r g b a : ℕ) :
    (setPix4 d base r g b a).length = d.length := by
  unfold setPix4
  rw [List.length_set, length_setPix3]

theorem getElem?_setPix3_mod3 (d : List ℕ) (s r g b i : ℕ) (hi : i % 4 = 3) :
    (setPix3 d (s * 4) r g b)[i]? = d[i]? := by
  unfold setPix3
  rw [List.getElem?_set_ne (by omega), List.getElem?_set_ne (by omega),
    List.getElem?_set_ne (by omega)]

theorem getElem?_setPix3_slot (d : List ℕ) (s r g b i : ℕ) (hi : i / 4 ≠ s) :
    (setPix3 d (s * 4) r g b)[i]? = d[i]? := by
  unfold setPix3
  rw [List.getElem?_set_ne (by omega), List.getElem?_set_ne (by omega),
    List.getElem?_set_ne (by omega)]

theorem getElem?_setPix4_slot (d : List ℕ) (s r g b a i : ℕ) (hi : i / 4 ≠ s) :
    (setPix4 d (s * 4) r g b a)[i]? = d[i]? := by
  unfold setPix4
  rw [List.getElem?_set_ne (by omega)]
  exact getElem?_setPix3_slot d s r g b i hi

theorem getElem?_setPix4_alpha (d : List ℕ) (s r g b a : ℕ) (h : s * 4 + 3 < d.length) :
    (setPix4 d (s * 4) r g b a)[s * 4 + 3]? = some a := by
  unfold setPix4
  exact List.getElem?_set_eq_of_lt a (by simpa [length_setPix3] using h)

/-- Distinct pixel coordinates occupy distinct slots (columns below `W`). -/
theorem slot_inj (W y1 x1 y2 x2 : ℕ) (h1 : x1 < W) (h2 : x2 < W)
    (he : y1 * W + x1 = y2 * W + x2) : y1 = y2 ∧ x1 = x2 := by
  rcases Nat.lt_trichotomy y1 y2 with h | h | h
  · exfalso
    have hle : (y1 + 1) * W ≤ y2 * W := Nat.mul_le_mul_right W h
    have : y1 * W + x1 < (y1 + 1) * W := by
      have : (y1 + 1) * W = y1 * W + W := by ring
      omega
    omega
  · constructor
    · exact h
    · subst h; omega
  · exfalso
    have hle : (y2 + 1) * W ≤ y1 * W := Nat.mul_le_mul_right W h
    have : y2 * W + x2 < (y2 + 1) * W := by
      have : (y2 + 1) * W = y2 * W + W := by ring
      omega
    omega

/-- A pixel slot of an in-range coordinate stays inside the buffer. -/
theorem slot_lt (W H ny nx : ℕ) (h1 : ny < H) (h2 : nx < W) :
    ny * W + nx < H * W := by
  have h3 : ny * W + nx < (ny + 1) * W := by
    have : (ny + 1) * W = ny * W + W := by ring
    omega
  have h4 : (ny + 1) * W ≤ H * W := Nat.mul_le_mul_right W h1
  omega

/-! ### Pass-level lemmas: what a loop nest of pixel writes does to a buffer -/

theorem length_pixPass3 (W : ℕ) (fR fG fB : ℕ → ℕ → ℕ) (ly hy lx hx : ℕ) (init : List ℕ) :
    (pixPass3 W fR fG fB ly hy lx hx init).length = init.length := by
  unfold pixPass3 foldRange
  refine foldRangeGo_inv _ (fun d : List ℕ => d.length = init.length) ?_ _ _ _ rfl
  intro y d hd
  refine foldRangeGo_inv _ (fun d2 : List ℕ => d2.length = init.length) ?_ _ _ _ hd
  intro x d2 hd2
  rw [length_setPix3]
  exact hd2

theorem length_pixPass4 (W : ℕ) (fR fG fB fA : ℕ → ℕ → ℕ) (ly hy lx hx : ℕ) (init : List ℕ) :
    (pixPass4 W fR fG fB fA ly hy lx hx init).length = init.length := by
  unfold pixPass4 foldRange
  refine foldRangeGo_inv _ (fun d : List ℕ => d.length = init.length) ?_ _ _ _ rfl
  intro y d hd
  refine foldRangeGo_inv _ (fun d2 : List ℕ => d2.length = init.length) ?_ _ _ _ hd
  intro x d2 hd2
  rw [length_setPix4]
  exact hd2

/-- A `pixPass3` never touches a position whose offset in its pixel is 3
(the alpha byte). -/
theorem pixPass3_mod3 (W : ℕ) (fR fG fB : ℕ → ℕ → ℕ) (ly hy lx hx : ℕ) (init : List ℕ)
    (i : ℕ) (hi : i % 4 = 3) :
    (pixPass3 W fR fG fB ly hy lx hx init)[i]? = init[i]? := by
  unfold pixPass3 foldRange
  refine foldRangeGo_inv _ (fun d : List ℕ => d[i]? = init[i]?) ?_ _ _ _ rfl
  intro y d hd
  refine foldRangeGo_inv _ (fun d2 : List ℕ => d2[i]? = init[i]?) ?_ _ _ _ hd
  intro x d2 hd2
  rw [getElem?_setPix3_mod3 d2 (y * W + x) _ _ _ i hi]
  exact hd2

/-- A `pixPass4` never touches positions outside the slots of the coordinates
it iterates over. -/
theorem pixPass4_untouched (W : ℕ) (fR fG fB fA : ℕ → ℕ → ℕ) (ly hy lx hx : ℕ)
    (init : List ℕ) (i : ℕ)
    (h : ∀ y x, ly ≤ y → y < hy → lx ≤ x → x < hx → i / 4 ≠ y * W + x) :
    (pixPass4 W fR fG fB fA ly hy lx hx init)[i]? = init[i]? := by
  unfold pixPass4 foldRange
  refine foldRangeGo_inv_between _ (fun d : List ℕ => d[i]? = init[i]?) _ _ _ ?_ rfl
  intro y d hy1 hy2 hd
  refine foldRangeGo_inv_between _ (fun d2 : List ℕ => d2[i]? = init[i]?) _ _ _ ?_ hd
  intro x d2 hx1 hx2 hd2
  rw [getElem?_setPix4_slot d2 (y * W + x) _ _ _ _ i (h y x (by omega) (by omega) (by omega) (by omega))]
  exact hd2

/-- Inner-row lemma: once the row containing the target pixel has run, the
target's alpha byte holds the written alpha value, and later writes in the
same row (different columns, hence different slots) preserve it. -/
theorem rowAlphaGo (B x0 : ℕ) (r g b a : ℕ → ℕ) (L : ℕ) (hL : (B + x0) * 4 + 3 < L) :
    ∀ fuel x d, d.length = L → x ≤ x0 → x0 < x + fuel →
      (foldRangeGo (fun x d2 => setPix4 d2 ((B + x) * 4) (r x) (g x) (b x) (a x)) fuel x d)[(B + x0) * 4 + 3]?
        = some (a x0)
  | 0, x, d, _, h1, h2 => by omega
  | fuel + 1, x, d, hd, h1, h2 => by
    rcases Nat.eq_or_lt_of_le h1 with he | hlt
    · subst he
      show (foldRangeGo _ fuel (x + 1) (setPix4 d ((B + x) * 4) (r x) (g x) (b x) (a x)))[(B + x) * 4 + 3]? = _
      refine foldRangeGo_inv_between _
        (fun d2 => d2[(B + x) * 4 + 3]? = some (a x)) _ _ _ ?_ ?_
      · intro x2 d2 hx1 hx2 hd2
        rw [getElem?_setPix4_slot d2 (B + x2) _ _ _ _ _ (by omega)]
        exact hd2
      · exact getElem?_setPix4_alpha d (B + x) _ _ _ _ (by omega)
    · show (foldRangeGo _ fuel (x + 1) (setPix4 d ((B + x) * 4) (r x) (g x) (b x) (a x)))[(B + x0) * 4 + 3]? = _
      exact rowAlphaGo B x0 r g b a L hL fuel (x + 1)
        (setPix4 d ((B + x) * 4) (r x) (g x) (b x) (a x))
        (by rw [length_setPix4]; exact hd) (by omega) (by omega)

/-- Length is preserved along a row of `setPix4` writes. -/
theorem rowLengthGo (B : ℕ) (r g b a : ℕ → ℕ) (fuel x : ℕ) (d : List ℕ) :
    (foldRangeGo (fun x d2 => setPix4 d2 ((B + x) * 4) (r x) (g x) (b x) (a x)) fuel x d).length
      = d.length := by
  refine foldRangeGo_inv _ (fun d2 : List ℕ => d2.length = d.length) ?_ _ _ _ rfl
  intro x2 d2 hd2
  rw [length_setPix4]
  exact hd2

/-- The alpha byte of an in-range pixel after a full `pixPass4` is the written
alpha value `fA y0 x0` (no later iteration overwrites it: all other coordinates
in range have different slots). -/
theorem pixPass4_alpha (W : ℕ) (fR fG fB fA : ℕ → ℕ → ℕ) (ly hy lx hx : ℕ)
    (init : List ℕ) (y0 x0 : ℕ)
    (hy0 : ly ≤ y0) (hy1 : y0 < hy) (hx0 : lx ≤ x0) (hx1 : x0 < hx) (hxW : hx ≤ W)
    (hL : (y0 * W + x0) * 4 + 3 < init.length) :
    (pixPass4 W fR fG fB fA ly hy lx hx init)[(y0 * W + x0) * 4 + 3]? = some (fA y0 x0) := by
  unfold pixPass4 foldRange
  have main : ∀ fuel y d, d.length = init.length → y ≤ y0 → y0 < y + fuel →
      (foldRangeGo (fun y d =>
        foldRangeGo (fun x d2 =>
          setPix4 d2 ((y * W + x) * 4) (fR y x) (fG y x) (fB y x) (fA y x)) (hx - lx) lx d)
        fuel y d)[(y0 * W + x0) * 4 + 3]? = some (fA y0 x0) := by
    intro fuel
    induction fuel with
    | zero => intro y d _ h1 h2; omega
    | succ fuel ih =>
      intro y d hd h1 h2
      rcases Nat.eq_or_lt_of_le h1 with he | hlt
      · subst he
        show (foldRangeGo _ fuel (y + 1)
          (foldRangeGo (fun x d2 =>
            setPix4 d2 ((y * W + x) * 4) (fR y x) (fG y x) (fB y x) (fA y x)) (hx - lx) lx d))[_]? = _
        refine foldRangeGo_inv_between _
          (fun d2 => d2[(y * W + x0) * 4 + 3]? = some (fA y x0)) _ _ _ ?_ ?_
        · intro y2 d2 hy2a hy2b hd2
          refine foldRangeGo_inv_between _
            (fun d3 => d3[(y * W + x0) * 4 + 3]? = some (fA y x0)) _ _ _ ?_ hd2
          intro x2 d3 hx2a hx2b hd3
          have hslot : ((y * W + x0) * 4 + 3) / 4 ≠ y2 * W + x2 := by
            have hq : ((y * W + x0) * 4 + 3) / 4 = y * W + x0 := by omega
            rw [hq]
            intro he
            rcases slot_inj W y x0 y2 x2 (by omega) (by omega) he with ⟨hee, _⟩
            omega
          rw [getElem?_setPix4_slot d3 (y2 * W + x2) _ _ _ _ _ hslot]
          exact hd3
        · exact rowAlphaGo (y * W) x0 (fR y) (fG y) (fB y) (fA y) init.length (by omega)
            (hx - lx) lx d hd hx0 (by omega)
      · show (foldRangeGo _ fuel (y + 1)
          (foldRangeGo (fun x d2 =>
            setPix4 d2 ((y * W + x) * 4) (fR y x) (fG y x) (fB y x) (fA y x)) (hx - lx) lx d))[_]? = _
        refine ih (y + 1) _ ?_ (by omega) (by omega)
        rw [rowLengthGo (y * W) (fR y) (fG y) (fB y) (fA y) (hx - lx) lx d]
        exact hd
  exact main (hy - ly) ly init rfl hy0 (by omega)

/-! ### Lemmas about the chunk-wise filters -/

theorem lum_lt (r g b : ℕ) : lum r g b < 256 :=
  Nat.mod_lt _ (by norm_num)

theorem lum_self (x : ℕ) (h : x < 256) : lum x x x = x := by
  unfold lum
  have he : x * 299 + x * 587 + x * 114 = x * 1000 := by ring
  rw [he, Nat.mul_div_cancel x (by norm_num)]
  exact Nat.mod_eq_of_lt h

theorem apply_grayscale_length : ∀ l : List ℕ, (apply_grayscale l).length = l.length := by
  intro l
  induction l using apply_grayscale.induct with
  | case1 r g b a rest ih => simp [apply_grayscale, ih]
  | case2 rest h => simp [apply_grayscale]

theorem apply_invert_length : ∀ l : List ℕ, (apply_invert l).length = l.length := by
  intro l
  induction l using apply_invert.induct with
  | case1 r g b a rest ih => simp [apply_invert, ih]
  | case2 rest h => simp [apply_invert]

theorem apply_grayscale_alpha : ∀ (l : List ℕ) (i : ℕ), i % 4 = 3 →
    (apply_grayscale l)[i]? = l[i]? := by
  intro l
  induction l using apply_grayscale.induct with
  | case1 r g b a rest ih =>
    intro i hi
    rcases i with _ | i; · omega
    rcases i with _ | i; · omega
    rcases i with _ | i; · omega
    rcases i with _ | i
    · simp [apply_grayscale]
    · show (apply_grayscale (r :: g :: b :: a :: rest))[i + 4]? = _
      simp only [apply_grayscale, List.getElem?_cons_succ]
      exact ih i (by omega)
  | case2 rest h =>
    intro i hi
    simp [apply_grayscale]

theorem apply_invert_alpha : ∀ (l : List ℕ) (i : ℕ), i % 4 = 3 →
    (apply_invert l)[i]? = l[i]? := by
  intro l
  induction l using apply_invert.induct with
  | case1 r g b a rest ih =>
    intro i hi
    rcases i with _ | i; · omega
    rcases i with _ | i; · omega
    rcases i with _ | i; · omega
    rcases i with _ | i
    · simp [apply_invert]
    · show (apply_invert (r :: g :: b :: a :: rest))[i + 4]? = _
      simp only [apply_invert, List.getElem?_cons_succ]
      exact ih i (by omega)
  | case2 rest h =>
    intro i hi
    simp [apply_invert]

theorem apply_grayscale_idem : ∀ l : List ℕ,
    apply_grayscale (apply_grayscale l) = apply_grayscale l := by
  intro l
  induction l using apply_grayscale.induct with
  | case1 r g b a rest ih =>
    show apply_grayscale (lum r g b :: lum r g b :: lum r g b :: a :: apply_grayscale rest) = _
    show lum (lum r g b) (lum r g b) (lum r g b) :: _ :: _ :: a :: apply_grayscale (apply_grayscale rest) = _
    rw [lum_self (lum r g b) (lum_lt r g b), ih]
    rfl
  | case2 rest h =>
    have he : apply_grayscale rest = rest := by
      cases rest with
      | nil => rfl
      | cons x t =>
        cases t with
        | nil => rfl
        | cons x2 t2 =>
          cases t2 with
          | nil => rfl
          | cons x3 t3 =>
            cases t3 with
            | nil => rfl
            | cons x4 t4 => exact absurd rfl (h x x2 x3 x4 t4)
    rw [he, he]

theorem apply_invert_invol : ∀ l : List ℕ, (∀ v ∈ l, v < 256) →
    apply_invert (apply_invert l) = l := by
  intro l
  induction l using apply_invert.induct with
  | case1 r g b a rest ih =>
    intro hb
    show (255 - (255 - r)) :: (255 - (255 - g)) :: (255 - (255 - b)) :: a :: apply_invert (apply_invert rest) = _
    have hr : r < 256 := hb r (by simp)
    have hg : g < 256 := hb g (by simp)
    have hbb : b < 256 := hb b (by simp)
    rw [Nat.sub_sub_self (by omega : r ≤ 255), Nat.sub_sub_self (by omega : g ≤ 255),
      Nat.sub_sub_self (by omega : b ≤ 255), ih (fun v hv => hb v (by simp [hv]))]
  | case2 rest h =>
    intro hb
    have he : apply_invert rest = rest := by
      cases rest with
      | nil => rfl
      | cons x t =>
        cases t with
        | nil => rfl
        | cons x2 t2 =>
          cases t2 with
          | nil => rfl
          | cons x3 t3 =>
            cases t3 with
            | nil => rfl
            | cons x4 t4 => exact absurd rfl (h x x2 x3 x4 t4)
    rw [he, he]

/-- Positions at or past the complete-chunk prefix (length `4 * (len / 4)`)
are returned unchanged by the chunk filters. -/
theorem apply_grayscale_tail : ∀ (l : List ℕ) (i : ℕ), 4 * (l.length / 4) ≤ i →
    (apply_grayscale l)[i]? = l[i]? := by
  intro l
  induction l using apply_grayscale.induct with
  | case1 r g b a rest ih =>
    intro i hi
    have hlen : (r :: g :: b :: a :: rest).length = rest.length + 4 := by simp
    rw [hlen] at hi
    have hi4 : 4 * (rest.length / 4) + 4 ≤ i := by omega
    obtain ⟨j, rfl⟩ : ∃ j, i = j + 4 := ⟨i - 4, by omega⟩
    show (apply_grayscale (r :: g :: b :: a :: rest))[j + 4]? = _
    simp only [apply_grayscale, List.getElem?_cons_succ]
    exact ih j (by omega)
  | case2 rest h =>
    intro i hi
    simp [apply_grayscale]

theorem apply_invert_tail : ∀ (l : List ℕ) (i : ℕ), 4 * (l.length / 4) ≤ i →
    (apply_invert l)[i]? = l[i]? := by
  intro l
  induction l using apply_invert.induct with
  | case1 r g b a rest ih =>
    intro i hi
    have hlen : (r :: g :: b :: a :: rest).length = rest.length + 4 := by simp
    rw [hlen] at hi
    have hi4 : 4 * (rest.length / 4) + 4 ≤ i := by omega
    obtain ⟨j, rfl⟩ : ∃ j, i = j + 4 := ⟨i - 4, by omega⟩
    show (apply_invert (r :: g :: b :: a :: rest))[j + 4]? = _
    simp only [apply_invert, List.getElem?_cons_succ]
    exact ih j (by omega)
  | case2 rest h =>
    intro i hi
    simp [apply_invert]

/-! ### Arithmetic helpers -/

theorem isqrt_eq_sqrt (n : ℕ) : isqrt n = Nat.sqrt n := by
  unfold isqrt foldRange
  have hstep : ∀ k acc, acc = min (Nat.sqrt n) k →
      (if (k + 1) * (k + 1) ≤ n then k + 1 else acc) = min (Nat.sqrt n) (k + 1) := by
    intro k acc hacc
    by_cases hk : (k + 1) * (k + 1) ≤ n
    · rw [if_pos hk]
      have hle : k + 1 ≤ Nat.sqrt n := Nat.le_sqrt'.mpr (by rw [Nat.pow_two]; exact hk)
      omega
    · rw [if_neg hk]
      have hgt : ¬(k + 1 ≤ Nat.sqrt n) := by
        intro hc
        exact hk (by rw [← Nat.pow_two]; exact Nat.le_sqrt'.mp hc)
      omega
  have h := foldRangeGo_ind (fun k acc => if (k + 1) * (k + 1) ≤ n then k + 1 else acc)
    (fun k acc => acc = min (Nat.sqrt n) k) hstep (n - 0) 0 0 (by simp)
  have hn : (0 : ℕ) + (n - 0) = n := by omega
  rw [hn] at h
  rw [h]
  have := Nat.sqrt_le_self n
  omega

theorem usubWrap_eq (a b : ℕ) (h1 : b ≤ a) (h2 : a - b < U32M) : usubWrap a b = a - b := by
  unfold usubWrap U32M at *
  omega

theorem getElem?_eq_some_getD (l : List ℕ) (i : ℕ) (h : i < l.length) :
    l[i]? = some (l.getD i 0) := by
  rw [List.getElem?_eq_getElem h, List.getD_eq_getElem l 0 h]

/-! ### The sharpen bridge: on the panic-free domain the monadic model agrees
with the pure one -/

theorem sharpenSums_eq_pure (src : List ℕ) (W H y x : ℕ) (hlen : src.length = W * H * 4)
    (hy : 2 ≤ y) (hyH : y < H - 2) (hx : 2 ≤ x) (hxW : x < W - 2) :
    sharpenSums src W y x = some (sharpenSumsPure src W y x) := by
  unfold sharpenSums sharpenSumsPure foldRangeM foldRange
  refine foldRangeMGo_eq_go _ _ (5 - 0) 0 _ ?_
  intro ky acc hky1 hky2
  refine foldRangeMGo_eq_go _ _ (5 - 0) 0 acc ?_
  intro kx a hkx1 hkx2
  have hny : y + ky - 2 < H := by omega
  have hnx : x + kx - 2 < W := by omega
  have hslot : (y + ky - 2) * W + (x + kx - 2) < H * W := slot_lt W H _ _ hny hnx
  have hlen2 : src.length = H * W * 4 := by rw [hlen]; ring
  have hb0 : ((y + ky - 2) * W + (x + kx - 2)) * 4 < src.length := by omega
  have hb1 : ((y + ky - 2) * W + (x + kx - 2)) * 4 + 1 < src.length := by omega
  have hb2 : ((y + ky - 2) * W + (x + kx - 2)) * 4 + 2 < src.length := by omega
  dsimp only
  rw [getElem?_eq_some_getD src _ hb0, getElem?_eq_some_getD src _ hb1,
    getElem?_eq_some_getD src _ hb2]
  rfl

theorem apply_sharpen_eq_pure (src : List ℕ) (W H strength : ℕ)
    (hlen : src.length = W * H * 4) (hW : 2 ≤ W) (hH : 2 ≤ H)
    (hW32 : W < U32M) (hH32 : H < U32M) :
    apply_sharpen src W H strength = some (apply_sharpen_pure src W H strength) := by
  unfold apply_sharpen apply_sharpen_pure pixPass4 foldRangeM foldRange
  rw [usubWrap_eq W 2 hW (by omega), usubWrap_eq H 2 hH (by omega)]
  refine foldRangeMGo_eq_go _ _ (H - 2 - 2) 2 _ ?_
  intro y d hy1 hy2
  refine foldRangeMGo_eq_go _ _ (W - 2 - 2) 2 d ?_
  intro x d2 hx1 hx2
  rw [sharpenSums_eq_pure src W H y x hlen (by omega) (by omega) (by omega) (by omega)]
  have hslot : y * W + x < H * W := slot_lt W H y x (by omega) (by omega)
  have hlen2 : src.length = H * W * 4 := by rw [hlen]; ring
  have hb0 : (y * W + x) * 4 < src.length := by omega
  have hb1 : (y * W + x) * 4 + 1 < src.length := by omega
  have hb2 : (y * W + x) * 4 + 2 < src.length := by omega
  have hb3 : (y * W + x) * 4 + 3 < src.length := by omega
  dsimp only
  rw [getElem?_eq_some_getD src _ hb0, getElem?_eq_some_getD src _ hb1,
    getElem?_eq_some_getD src _ hb2, getElem?_eq_some_getD src _ hb3]
  rfl

/-! ### Remaining kernel-level helper lemmas -/

theorem apply_blur_length (buf : List ℕ) (W H radius : ℕ) :
    (apply_blur buf W H radius).length = buf.length := by
  unfold apply_blur
  dsimp only
  rw [length_pixPass3]

theorem apply_blur_alpha (buf : List ℕ) (W H radius i : ℕ) (hi : i % 4 = 3) :
    (apply_blur buf W H radius)[i]? = buf[i]? := by
  unfold apply_blur
  dsimp only
  rw [pixPass3_mod3 _ _ _ _ _ _ _ _ _ i hi]

theorem apply_edge_detection_length (src : List ℕ) (W H : ℕ) :
    (apply_edge_detection src W H).length = src.length := by
  unfold apply_edge_detection
  rw [length_pixPass4, List.length_replicate]

theorem edge_border_zero (src : List ℕ) (W H y x c : ℕ) (hlen : src.length = W * H * 4)
    (hy : y < H) (hx : x < W) (hc : c < 4)
    (hb : y = 0 ∨ y = H - 1 ∨ x = 0 ∨ x = W - 1) :
    (apply_edge_detection src W H)[(y * W + x) * 4 + c]? = some 0 := by
  unfold apply_edge_detection
  rw [pixPass4_untouched]
  · rw [List.getElem?_replicate, if_pos]
    have hslot : y * W + x < H * W := slot_lt W H y x hy hx
    have hlen2 : src.length = H * W * 4 := by rw [hlen]; ring
    omega
  · intro y2 x2 hy2a hy2b hx2a hx2b
    have hq : ((y * W + x) * 4 + c) / 4 = y * W + x := by omega
    rw [hq]
    intro he
    rcases slot_inj W y x y2 x2 hx (by omega) he with ⟨hey, hex⟩
    omega

theorem edge_interior_alpha (src : List ℕ) (W H y x : ℕ) (hlen : src.length = W * H * 4)
    (h1 : 1 ≤ y) (h2 : y < H - 1) (h3 : 1 ≤ x) (h4 : x < W - 1) :
    (apply_edge_detection src W H)[(y * W + x) * 4 + 3]? = src[(y * W + x) * 4 + 3]? := by
  have hslot : y * W + x < H * W := slot_lt W H y x (by omega) (by omega)
  have hlen2 : src.length = H * W * 4 := by rw [hlen]; ring
  have hb : (y * W + x) * 4 + 3 < src.length := by omega
  unfold apply_edge_detection
  rw [pixPass4_alpha W _ _ _ _ 1 (H - 1) 1 (W - 1) _ y x h1 h2 h3 h4 (by omega)
    (by rw [List.length_replicate]; exact hb)]
  rw [getElem?_eq_some_getD src _ hb]

theorem sharpen_pure_length (src : List ℕ) (W H strength : ℕ) :
    (apply_sharpen_pure src W H strength).length = src.length := by
  unfold apply_sharpen_pure
  rw [length_pixPass4, List.length_replicate]

theorem sharpen_pure_border_zero (src : List ℕ) (W H strength y x c : ℕ)
    (hlen : src.length = W * H * 4) (hy : y < H) (hx : x < W) (hc : c < 4)
    (hb : y < 2 ∨ H - 2 ≤ y ∨ x < 2 ∨ W - 2 ≤ x) :
    (apply_sharpen_pure src W H strength)[(y * W + x) * 4 + c]? = some 0 := by
  unfold apply_sharpen_pure
  rw [pixPass4_untouched]
  · rw [List.getElem?_replicate, if_pos]
    have hslot : y * W + x < H * W := slot_lt W H y x hy hx
    have hlen2 : src.length = H * W * 4 := by rw [hlen]; ring
    omega
  · intro y2 x2 hy2a hy2b hx2a hx2b
    have hq : ((y * W + x) * 4 + c) / 4 = y * W + x := by omega
    rw [hq]
    intro he
    rcases slot_inj W y x y2 x2 hx (by omega) he with ⟨hey, hex⟩
    omega

theorem sharpen_pure_interior_alpha (src : List ℕ) (W H strength y x : ℕ)
    (hlen : src.length = W * H * 4)
    (h1 : 2 ≤ y) (h2 : y < H - 2) (h3 : 2 ≤ x) (h4 : x < W - 2) :
    (apply_sharpen_pure src W H strength)[(y * W + x) * 4 + 3]? = src[(y * W + x) * 4 + 3]? := by
  have hslot : y * W + x < H * W := slot_lt W H y x (by omega) (by omega)
  have hlen2 : src.length = H * W * 4 := by rw [hlen]; ring
  have hb : (y * W + x) * 4 + 3 < src.length := by omega
  unfold apply_sharpen_pure
  rw [pixPass4_alpha W _ _ _ _ 2 (H - 2) 2 (W - 2) _ y x h1 h2 h3 h4 (by omega)
    (by rw [List.length_replicate]; exact hb)]
  rw [getElem?_eq_some_getD src _ hb]

/-- Trial division up to the integer square root decides primality (the
characterization used by `calculate_primes`). -/
theorem mem_calculate_primes (limit n : ℕ) :
    n ∈ calculate_primes limit ↔ n.Prime ∧ n ≤ limit := by
  unfold calculate_primes isPrimeTrial
  rw [List.mem_filter, List.mem_range'_1, List.all_eq_true]
  constructor
  · rintro ⟨⟨h2, hlt⟩, hall⟩
    refine ⟨Nat.prime_def_le_sqrt.mpr ⟨h2, ?_⟩, by omega⟩
    intro m hm1 hm2 hdvd
    have hmem : m ∈ List.range' 2 (isqrt n + 1 - 2) := by
      rw [List.mem_range'_1, isqrt_eq_sqrt]
      omega
    have hm := hall m hmem
    simp only [Bool.not_eq_eq_eq_not, Bool.not_true, beq_eq_false_iff_ne, ne_eq] at hm
    exact hm (Nat.dvd_iff_mod_eq_zero.mp hdvd)
  · rintro ⟨hp, hle⟩
    have h2 := hp.two_le
    refine ⟨⟨h2, by omega⟩, ?_⟩
    intro i hi
    rw [List.mem_range'_1, isqrt_eq_sqrt] at hi
    have hnd : ¬ i ∣ n := (Nat.prime_def_le_sqrt.mp hp).2 i (by omega) (by omega)
    have : n % i ≠ 0 := fun hz => hnd (Nat.dvd_iff_mod_eq_zero.mpr hz)
    simp [this]

theorem calculate_primes_sorted (limit : ℕ) :
    (calculate_primes limit).Pairwise (· < ·) :=
  List.Pairwise.filter _ (List.pairwise_lt_range' 2 (limit + 1 - 2))

/-! ### Claim theorems -/

/-- Claim C1 (code bug): the claim asserts that `apply_blur` with radius 0 is
the identity, but the code computes `two_sigma_sq = 0` and every Gaussian
weight as `exp(-0.0/0.0) = NaN`; the NaN-contaminated sums cast to `0`
(`NaN as u8 = 0`), so every R, G, B byte of the output is `0` while alpha is
preserved.  At the failing input `[100, 150, 200, 255]` (1x1 image, radius 0)
the output is `[0, 0, 0, 255]`, not the unchanged input. -/
theorem c1_blur_radius_zero_eval :
    apply_blur [100, 150, 200, 255] 1 1 0 = [0, 0, 0, 255] ∧
    apply_blur [100, 150, 200, 255] 1 1 0 ≠ [100, 150, 200, 255] := by
  constructor
  · with_unfolding_all decide
  · with_unfolding_all decide

/-- Claim C2 (counterexample): the claim says `matrix_multiply(2)` builds
`B = [[0,1],[0,1]]` and returns `[0,1,0,3]`; but `B[i][j] = (i*j) mod 10`
gives `B = [[0,0],[0,1]]`, and the product is `[0,1,0,2]`. -/
theorem c2_counterexample : matrix_multiply 2 ≠ [0, 1, 0, 3] := by
  with_unfolding_all decide

/-- Claim C2 (amended): `matrix_multiply(2)` builds `A = [[0,1],[1,2]]` and
`B = [[0,0],[0,1]]` from `(i+j) mod 10` and `(i*j) mod 10` and returns the
row-major product `[0,1,0,2]`. -/
theorem c2_matrix_multiply_two :
    matrixA 2 = [0, 1, 1, 2] ∧ matrixB 2 = [0, 0, 0, 1] ∧ matrix_multiply 2 = [0, 1, 0, 2] := by
  refine ⟨?_, ?_, ?_⟩ <;> with_unfolding_all decide

/-- Claim C3 (code bug): with degenerate parameters, `generate_mandelbrot`
(`max_iterations = 0`), `matrix_multiply` and `sort_array` (`size = 0`) and
`fibonacci_sequence` (`count < 2`) all produce well-formed trivial results —
but `estimate_pi(0)` computes `4.0 * 0.0 / 0.0`, a floating division by zero,
and returns NaN rather than a well-formed value. -/
theorem c3_degenerate_params :
    estimate_pi 0 = F.nan ∧
    (∀ w h, (generate_mandelbrot w h 0).length = w * h * 4) ∧
    matrix_multiply 0 = [] ∧
    sort_array 0 = [] ∧
    fibonacci_sequence 0 = [] ∧
    fibonacci_sequence 1 = [0] := by
  refine ⟨by with_unfolding_all decide, ?_, rfl, rfl, rfl, rfl⟩
  intro w h
  unfold generate_mandelbrot
  rw [length_pixPass4, List.length_replicate]

/-- Claim C4: `apply_invert` is an involution on byte buffers: each of R, G, B
maps to `255 - v` (which cannot underflow for `v ≤ 255`) and alpha is
untouched, so two applications restore every byte, including any trailing
partial chunk, which is left untouched by both applications. -/
theorem c4_invert_involution (l : List ℕ) (h : ∀ v ∈ l, v < 256) :
    apply_invert (apply_invert l) = l :=
  apply_invert_invol l h

theorem c4_invert_involution_witness :
    (∀ v ∈ [10, 200, 255, 0, 7], v < 256) ∧
    apply_invert (apply_invert [10, 200, 255, 0, 7]) = [10, 200, 255, 0, 7] :=
  ⟨by decide, c4_invert_involution [10, 200, 255, 0, 7] (by decide)⟩

/-- Claim C5: `apply_grayscale` is idempotent: a pixel produced by the first
pass has `R = G = B = gray < 256`, and the luminance of such a pixel is
`(gray * 299 + gray * 587 + gray * 114) / 1000 = gray * 1000 / 1000 = gray`,
so the second pass changes nothing (and trailing partial chunks are never
touched). -/
theorem c5_grayscale_idempotent (l : List ℕ) :
    apply_grayscale (apply_grayscale l) = apply_grayscale l :=
  apply_grayscale_idem l

/-- Claim C6: `apply_grayscale`, `apply_invert` and `apply_blur` (with
matching width/height) return buffers of the input's length, and every alpha
byte (offset 3 inside its 4-byte pixel) is returned unchanged: the chunk
filters write only offsets 0-2 of each chunk, and both blur passes write only
offsets 0-2 of each pixel. -/
theorem c6_length_alpha_preserved (buf : List ℕ) (W H radius : ℕ)
    (hlen : buf.length = W * H * 4) :
    (apply_grayscale buf).length = buf.length ∧
    (apply_invert buf).length = buf.length ∧
    (apply_blur buf W H radius).length = buf.length ∧
    ∀ i, i % 4 = 3 →
      (apply_grayscale buf)[i]? = buf[i]? ∧
      (apply_invert buf)[i]? = buf[i]? ∧
      (apply_blur buf W H radius)[i]? = buf[i]? :=
  ⟨apply_grayscale_length buf, apply_invert_length buf, apply_blur_length buf W H radius,
    fun i hi => ⟨apply_grayscale_alpha buf i hi, apply_invert_alpha buf i hi,
      apply_blur_alpha buf W H radius i hi⟩⟩

theorem c6_length_alpha_preserved_witness :
    ([1, 2, 3, 4] : List ℕ).length = 1 * 1 * 4 ∧
    (((apply_grayscale [1, 2, 3, 4]).length = ([1, 2, 3, 4] : List ℕ).length ∧
      (apply_invert [1, 2, 3, 4]).length = ([1, 2, 3, 4] : List ℕ).length ∧
      (apply_blur [1, 2, 3, 4] 1 1 2).length = ([1, 2, 3, 4] : List ℕ).length ∧
      ∀ i, i % 4 = 3 →
        (apply_grayscale [1, 2, 3, 4])[i]? = ([1, 2, 3, 4] : List ℕ)[i]? ∧
        (apply_invert [1, 2, 3, 4])[i]? = ([1, 2, 3, 4] : List ℕ)[i]? ∧
        (apply_blur [1, 2, 3, 4] 1 1 2)[i]? = ([1, 2, 3, 4] : List ℕ)[i]?)) :=
  ⟨by decide, c6_length_alpha_preserved [1, 2, 3, 4] 1 1 2 (by decide)⟩

/-- Claim C7 (counterexample): the claim quantifies over all
`width, height ≥ 1`, but at `width = height = 1` (buffer length 4) the
`apply_sharpen` loop bound `height - 2` wraps on `usize`, the body runs, and
the first neighbourhood read `image_data[4]` is out of bounds: the call
panics (`none`) instead of returning a buffer of zero borders. -/
theorem c7_counterexample : apply_sharpen [0, 0, 0, 0] 1 1 1 = none := by
  with_unfolding_all decide

/-- Claim C7 (amended): for buffers with `len = width*height*4` and
`width, height ≥ 1`, `apply_edge_detection` zeroes all four channels of every
border pixel and copies interior alpha from the source; `apply_sharpen`
additionally requires `width, height ≥ 2` (otherwise its `usize` loop bounds
wrap and it panics) and then returns a buffer in which every pixel within 2
of any edge is zero on all four channels and interior alpha is copied from
the source. -/
theorem c7_sobel_sharpen_borders (src : List ℕ) (W H strength : ℕ)
    (hlen : src.length = W * H * 4) (hW32 : W < U32M) (hH32 : H < U32M)
    (hW : 1 ≤ W) (hH : 1 ≤ H) :
    ((apply_edge_detection src W H).length = src.length ∧
     (∀ y x c, y < H → x < W → c < 4 → (y = 0 ∨ y = H - 1 ∨ x = 0 ∨ x = W - 1) →
       (apply_edge_detection src W H)[(y * W + x) * 4 + c]? = some 0) ∧
     (∀ y x, 1 ≤ y → y < H - 1 → 1 ≤ x → x < W - 1 →
       (apply_edge_detection src W H)[(y * W + x) * 4 + 3]? = src[(y * W + x) * 4 + 3]?)) ∧
    (2 ≤ W → 2 ≤ H →
      ∃ out, apply_sharpen src W H strength = some out ∧
        out.length = src.length ∧
        (∀ y x c, y < H → x < W → c < 4 → (y < 2 ∨ H - 2 ≤ y ∨ x < 2 ∨ W - 2 ≤ x) →
          out[(y * W + x) * 4 + c]? = some 0) ∧
        (∀ y x, 2 ≤ y → y < H - 2 → 2 ≤ x → x < W - 2 →
          out[(y * W + x) * 4 + 3]? = src[(y * W + x) * 4 + 3]?)) := by
  constructor
  · refine ⟨apply_edge_detection_length src W H, ?_, ?_⟩
    · intro y x c hy hx hc hb
      exact edge_border_zero src W H y x c hlen hy hx hc hb
    · intro y x h1 h2 h3 h4
      exact edge_interior_alpha src W H y x hlen h1 h2 h3 h4
  · intro hW2 hH2
    refine ⟨apply_sharpen_pure src W H strength,
      apply_sharpen_eq_pure src W H strength hlen hW2 hH2 hW32 hH32,
      sharpen_pure_length src W H strength, ?_, ?_⟩
    · intro y x c hy hx hc hb
      exact sharpen_pure_border_zero src W H strength y x c hlen hy hx hc hb
    · intro y x h1 h2 h3 h4
      exact sharpen_pure_interior_alpha src W H strength y x hlen h1 h2 h3 h4

set_option maxRecDepth 8192 in
theorem c7_sobel_sharpen_borders_witness :
    (List.replicate 144 9 : List ℕ).length = 6 * 6 * 4 ∧
    (((apply_edge_detection (List.replicate 144 9) 6 6).length = (List.replicate 144 9 : List ℕ).length ∧
      (∀ y x c, y < 6 → x < 6 → c < 4 → (y = 0 ∨ y = 6 - 1 ∨ x = 0 ∨ x = 6 - 1) →
        (apply_edge_detection (List.replicate 144 9) 6 6)[(y * 6 + x) * 4 + c]? = some 0) ∧
      (∀ y x, 1 ≤ y → y < 6 - 1 → 1 ≤ x → x < 6 - 1 →
        (apply_edge_detection (List.replicate 144 9) 6 6)[(y * 6 + x) * 4 + 3]?
          = (List.replicate 144 9 : List ℕ)[(y * 6 + x) * 4 + 3]?)) ∧
     (2 ≤ 6 → 2 ≤ 6 →
       ∃ out, apply_sharpen (List.replicate 144 9) 6 6 3 = some out ∧
         out.length = (List.replicate 144 9 : List ℕ).length ∧
         (∀ y x c, y < 6 → x < 6 → c < 4 → (y < 2 ∨ 6 - 2 ≤ y ∨ x < 2 ∨ 6 - 2 ≤ x) →
           out[(y * 6 + x) * 4 + c]? = some 0) ∧
         (∀ y x, 2 ≤ y → y < 6 - 2 → 2 ≤ x → x < 6 - 2 →
           out[(y * 6 + x) * 4 + 3]? = (List.replicate 144 9 : List ℕ)[(y * 6 + x) * 4 + 3]?))) :=
  ⟨by decide,
    c7_sobel_sharpen_borders (List.replicate 144 9) 6 6 3 (by decide) (by decide) (by decide)
      (by decide) (by decide)⟩

/-- Claim C8: `calculate_primes limit` returns exactly the primes from 2 to
`limit` inclusive, in strictly increasing order (hence with no duplicates):
trial division by every `i` with `2 ≤ i ≤ sqrt num` accepts exactly the
primes, and filtering the increasing range `2..=limit` keeps it sorted.  In
particular `calculate_primes 10 = [2, 3, 5, 7]`. -/
theorem c8_calculate_primes (limit : ℕ) :
    (∀ n, n ∈ calculate_primes limit ↔ n.Prime ∧ n ≤ limit) ∧
    (calculate_primes limit).Pairwise (· < ·) ∧
    calculate_primes 10 = [2, 3, 5, 7] :=
  ⟨fun n => mem_calculate_primes limit n, calculate_primes_sorted limit, by decide⟩

theorem hashStep_lt (h i : ℕ) : hashStep h i < U32M := by
  unfold hashStep
  exact Nat.mod_lt _ (by unfold U32M; norm_num)

/-- Claim C9: `compute_hashes` is a total function of `iterations` alone (it
is a closed fold of `hashStep` from the fixed seed `0x12345678`): the result
is always a 32-bit value, every multiply-add in `hashStep` reduces modulo
`2^32` (wrapping, never trapping or saturating), and each further iteration
applies one more `hashStep` round. -/
theorem c9_compute_hashes (iterations : ℕ) :
    compute_hashes iterations < U32M ∧
    compute_hashes (iterations + 1) = hashStep (compute_hashes iterations) iterations := by
  constructor
  · unfold compute_hashes foldRange
    refine foldRangeGo_inv _ (fun h => h < U32M) ?_ _ _ _ (by unfold U32M; norm_num)
    intro i h hh
    exact hashStep_lt h i
  · unfold compute_hashes foldRange
    have hs := foldRangeGo_succ (fun i h => hashStep h i) iterations 0 0x12345678
    simpa using hs

/-- Claim C10: on buffers whose length is not a multiple of 4,
`apply_grayscale` and `apply_invert` still return a buffer of the input's
exact length (`chunks_exact_mut(4)` performs no out-of-bounds access), and
every byte at or past position `4 * (len / 4)` — the trailing `len mod 4`
bytes after the last complete pixel — is returned unchanged. -/
theorem c10_trailing_bytes (l : List ℕ) (h : l.length % 4 ≠ 0) :
    (apply_grayscale l).length = l.length ∧
    (apply_invert l).length = l.length ∧
    ∀ i, 4 * (l.length / 4) ≤ i →
      (apply_grayscale l)[i]? = l[i]? ∧ (apply_invert l)[i]? = l[i]? :=
  ⟨apply_grayscale_length l, apply_invert_length l,
    fun i hi => ⟨apply_grayscale_tail l i hi, apply_invert_tail l i hi⟩⟩

theorem c10_trailing_bytes_witness :
    ([10, 20, 30, 40, 50, 60] : List ℕ).length % 4 ≠ 0 ∧
    ((apply_grayscale [10, 20, 30, 40, 50, 60]).length = ([10, 20, 30, 40, 50, 60] : List ℕ).length ∧
     (apply_invert [10, 20, 30, 40, 50, 60]).length = ([10, 20, 30, 40, 50, 60] : List ℕ).length ∧
     ∀ i, 4 * (([10, 20, 30, 40, 50, 60] : List ℕ).length / 4) ≤ i →
       (apply_grayscale [10, 20, 30, 40, 50, 60])[i]? = ([10, 20, 30, 40, 50, 60] : List ℕ)[i]? ∧
       (apply_invert [10, 20, 30, 40, 50, 60])[i]? = ([10, 20, 30, 40, 50, 60] : List ℕ)[i]?) :=
  ⟨by decide, c10_trailing_bytes [10, 20, 30, 40, 50, 60] (by decide)⟩
